import Mathlib

set_option maxRecDepth 4096

deriving instance DecidableEq for Except

/-!
Verification development for the cw-plus-bm staking repository.

The repository source under verification consists of
`contracts/cw4-stake/src/state.rs`, `contracts/cw4-stake/src/msg.rs` and
`contracts/cw20-base/src/msg.rs`.  The state declarations of cw4-stake refer
to a staking engine (Bond / Unbond / Claim), a snapshotting membership map and
a claims ledger whose executable code is not part of the repository sources;
those parts are modelled here from the specification document, as noted on
each definition.  The cw20-base message validation is translated directly from
the source.
-/

namespace CwStake

/-- Addresses are plain strings (cosmwasm `Addr`). -/
abbrev Addr := String

/-! ### Association lists

`cw_storage_plus::Map` / `Item` storage is modelled as association lists keyed
by address: at most one live entry per key, an absent entry meaning "unset".
-/

section AList

variable {β : Type}

/-- Lookup of the first entry with the given key (`Map::may_load`). -/
def alistGet (l : List (Addr × β)) (a : Addr) : Option β :=
  match l with
  | [] => none
  | (k, v) :: rest => if k = a then some v else alistGet rest a

/-- Update the entry at key `a` with `f`, inserting `f d` when absent
(`Map::update` with a default). -/
def alistUpdate (l : List (Addr × β)) (a : Addr) (d : β) (f : β → β) :
    List (Addr × β) :=
  match l with
  | [] => [(a, f d)]
  | (k, v) :: rest =>
    if k = a then (k, f v) :: rest else (k, v) :: alistUpdate rest a d f

/-- Store value `v` at key `a` (`Map::save`). -/
def alistSet (l : List (Addr × β)) (a : Addr) (v : β) : List (Addr × β) :=
  alistUpdate l a v (fun _ => v)

/-- Delete the entry at key `a` (`Map::remove`). -/
def alistRemove (l : List (Addr × β)) (a : Addr) : List (Addr × β) :=
  match l with
  | [] => []
  | (k, v) :: rest => if k = a then rest else (k, v) :: alistRemove rest a

/-- Well-formedness of a stored map: pairwise distinct keys. -/
def KeysNodup (l : List (Addr × β)) : Prop :=
  l.Pairwise (fun p q => p.1 ≠ q.1)

end AList

/-- Sum of the values of a weight map (used for the TOTAL invariant). -/
def sumW : List (Addr × Nat) → Nat
  | [] => 0
  | p :: rest => p.2 + sumW rest

/-! ### Value types (cw20::Denom, cw_utils::Duration / Expiration) -/

/-- `cw20::Denom`: a native coin denomination or a cw20 contract address. -/
inductive Denom where
  | native : String → Denom
  | cw20 : Addr → Denom
deriving DecidableEq

/-- `cw_utils::Duration`: a time delta in blocks or in seconds. -/
inductive Duration where
  | height : Nat → Duration
  | time : Nat → Duration
deriving DecidableEq

/-- `cw_utils::Expiration`: a point in time, either a block height or a
timestamp. -/
inductive Expiration where
  | atHeight : Nat → Expiration
  | atTime : Nat → Expiration
deriving DecidableEq

/-- The block environment: current height and current timestamp. -/
structure Env where
  height : Nat
  time : Nat
deriving DecidableEq

/-- An expiration has passed when the corresponding component of "now" has
reached it. -/
def Expiration.isExpired : Expiration → Env → Bool
  | Expiration.atHeight h, env => decide (h ≤ env.height)
  | Expiration.atTime t, env => decide (t ≤ env.time)

/-- Adding a duration to "now" yields the matching expiration. -/
def Duration.after : Duration → Env → Expiration
  | Duration.height n, env => Expiration.atHeight (env.height + n)
  | Duration.time s, env => Expiration.atTime (env.time + s)

/-- `Config` from cw4-stake `state.rs`. -/
structure Config where
  denom : Denom
  tokens_per_weight : Nat
  min_bond : Nat
  unbonding_period : Duration
deriving DecidableEq

/-- A pending withdrawal (`cw_controllers::Claim`). -/
structure Claim where
  amount : Nat
  release_at : Expiration
deriving DecidableEq

/-- The error cases of the staking engine named by the specification. -/
inductive ContractError where
  | WrongDenom
  | BelowMinimumBond
  | InsufficientStake
  | NothingToClaim
deriving DecidableEq

/-! ### Snapshot membership map

Modelled from the spec: `cw_storage_plus::SnapshotMap` with
`Strategy::EveryBlock` (declaration `MEMBERS` in `state.rs`), whose code is a
library dependency outside the repository sources.  Per spec section 4.1,
under strategy "every write" each `set`/`remove` appends a (height, value)
pair to the address's history, writes at the same height collapsing to the
latest value; a history lookup for height H returns the value of the latest
pair with height ≤ H.
-/

/-- One history checkpoint: the value recorded at a height; `none` means the
address was removed at that height. -/
structure SnapEntry where
  height : Nat
  value : Option Nat
deriving DecidableEq

/-- Modelled from the spec: append a history pair at height `h`, collapsing
with an existing pair at the same height (spec section 4.1, edge case).  The
history is kept newest first. -/
def appendEntry (hist : List SnapEntry) (h : Nat) (v : Option Nat) :
    List SnapEntry :=
  match hist with
  | [] => [{ height := h, value := v }]
  | e :: rest =>
    if e.height = h then { height := h, value := v } :: rest
    else { height := h, value := v } :: e :: rest

/-- Modelled from the spec: current weights plus a per-address checkpoint
history (the SnapshotMap `MEMBERS` of `state.rs`). -/
structure SnapshotMap where
  current : List (Addr × Nat)
  history : List (Addr × List SnapEntry)
deriving DecidableEq

/-- Modelled from the spec: write a new weight for `addr` at `height`,
recording it in the history. -/
def SnapshotMap.set (m : SnapshotMap) (addr : Addr) (w : Nat) (height : Nat) :
    SnapshotMap :=
  { current := alistSet m.current addr w,
    history :=
      alistUpdate m.history addr [] (fun hist => appendEntry hist height (some w)) }

/-- Modelled from the spec: remove `addr` at `height`, recording the removal
in the history (spec section 4.1: removal records absence at the removal
height). -/
def SnapshotMap.remove (m : SnapshotMap) (addr : Addr) (height : Nat) :
    SnapshotMap :=
  { current := alistRemove m.current addr,
    history :=
      alistUpdate m.history addr [] (fun hist => appendEntry hist height none) }

/-- Modelled from the spec: the value of the latest history pair with height
at most `H`, or `none` when no pair exists at or before `H`. -/
def histLookup (hist : List SnapEntry) (H : Nat) : Option Nat :=
  match hist.find? (fun e => decide (e.height ≤ H)) with
  | some e => e.value
  | none => none

/-! ### Contract state and the staking engine

Modelled from the spec: the Bond / Unbond / Claim transaction logic of the
staking engine (spec sections 4.2 and 4.3), whose executable code is not among
the repository sources (only its state declarations in `state.rs` are).
-/

/-- The complete storage of the cw4-stake contract: `CONFIG`, `TOTAL`,
`MEMBERS`, `STAKE`, `CLAIMS` from `state.rs`. -/
structure ContractState where
  config : Config
  total : Nat
  members : SnapshotMap
  stake : List (Addr × Nat)
  claims : List (Addr × List Claim)
deriving DecidableEq

/-- Fresh state right after instantiation. -/
def initState (cfg : Config) : ContractState :=
  { config := cfg, total := 0, members := { current := [], history := [] },
    stake := [], claims := [] }

/-- Current bonded stake of an address; an absent entry counts as zero. -/
def stakeOf (st : ContractState) (a : Addr) : Nat :=
  (alistGet st.stake a).getD 0

/-- Current membership weight of an address; an absent entry counts as zero. -/
def weightOf (st : ContractState) (a : Addr) : Nat :=
  (alistGet st.members.current a).getD 0

/-- Pending claims list of an address. -/
def claimsOf (st : ContractState) (a : Addr) : List Claim :=
  (alistGet st.claims a).getD []

/-- Checkpoint history of an address. -/
def histOf (st : ContractState) (a : Addr) : List SnapEntry :=
  (alistGet st.members.history a).getD []

/-- Modelled from the spec: the membership weight derived from a stake,
`floor(stake / tokens_per_weight)`, as an optional map entry: a zero weight
is stored as absence (spec section 3, membership weight entry). -/
def newWeightOpt (st : ContractState) (new_stake : Nat) : Option Nat :=
  if new_stake / st.config.tokens_per_weight = 0 then none
  else some (new_stake / st.config.tokens_per_weight)

/-- Modelled from the spec: after a stake change, recompute the weight, and
when it changed write the snapshot map and adjust TOTAL by the weight delta in
the same operation; a write is skipped when the floor division yields the same
weight as before (spec section 4.3). -/
def update_membership (st : ContractState) (addr : Addr) (new_stake : Nat)
    (height : Nat) : ContractState :=
  if alistGet st.members.current addr = newWeightOpt st new_stake then st
  else
    { st with
      members :=
        match newWeightOpt st new_stake with
        | some w => SnapshotMap.set st.members addr w height
        | none => SnapshotMap.remove st.members addr height,
      total := st.total + new_stake / st.config.tokens_per_weight -
        (alistGet st.members.current addr).getD 0 }

/-- Modelled from the spec: Bond (spec section 4.3).  Requires the funds
denom to match the configured denom, else `WrongDenom`; a first bond (zero
current stake) must reach `min_bond`, else `BelowMinimumBond`.  Adds the
amount to the stake and updates membership weight and total. -/
def bond (st : ContractState) (env : Env) (sender : Addr) (amount : Nat)
    (d : Denom) : Except ContractError ContractState :=
  if d ≠ st.config.denom then Except.error ContractError.WrongDenom
  else if stakeOf st sender = 0 ∧ amount < st.config.min_bond then
    Except.error ContractError.BelowMinimumBond
  else
    Except.ok (update_membership
      { st with stake := alistSet st.stake sender (stakeOf st sender + amount) }
      sender (stakeOf st sender + amount) env.height)

/-- Modelled from the spec: Unbond (spec section 4.3).  Requires the amount
to be at most the current stake, else `InsufficientStake`; subtracts it from
the stake, appends a claim maturing at now plus the unbonding period, and
updates membership weight and total. -/
def unbond (st : ContractState) (env : Env) (sender : Addr) (tokens : Nat) :
    Except ContractError ContractState :=
  if stakeOf st sender < tokens then Except.error ContractError.InsufficientStake
  else
    Except.ok (update_membership
      { st with
        stake := alistSet st.stake sender (stakeOf st sender - tokens),
        claims := alistUpdate st.claims sender []
          (fun cs => cs ++
            [{ amount := tokens,
               release_at := Duration.after st.config.unbonding_period env }]) }
      sender (stakeOf st sender - tokens) env.height)

/-- The claims of a list that have matured at `env` (release time passed). -/
def maturedClaims (cs : List Claim) (env : Env) : List Claim :=
  cs.filter (fun c => c.release_at.isExpired env)

/-- The claims of a list that have not yet matured at `env`. -/
def pendingClaims (cs : List Claim) (env : Env) : List Claim :=
  cs.filter (fun c => !(c.release_at.isExpired env))

/-- Total amount of a list of claims. -/
def sumAmounts (cs : List Claim) : Nat :=
  (cs.map Claim.amount).sum

/-- Modelled from the spec: release matured claims in first-created order up
to a limit, splitting the last partially released claim into a remainder with
the same release time (spec section 4.2). -/
def takeUpTo : List Claim → Nat → Nat × List Claim
  | [], _ => (0, [])
  | c :: rest, limit =>
    if limit = 0 then (0, c :: rest)
    else if c.amount ≤ limit then
      ((takeUpTo rest (limit - c.amount)).1 + c.amount,
       (takeUpTo rest (limit - c.amount)).2)
    else (limit, { amount := c.amount - limit, release_at := c.release_at } :: rest)

/-- Modelled from the spec: `release_claims` of the claims ledger (spec
section 4.2).  Partitions the claims into matured and pending, releases the
matured ones (up to the optional limit), errors with `NothingToClaim` when the
released amount is zero, and otherwise returns the released amount together
with the remaining stored list. -/
def release_claims (cs : List Claim) (env : Env) (limit : Option Nat) :
    Except ContractError (Nat × List Claim) :=
  match limit with
  | none =>
    if sumAmounts (maturedClaims cs env) = 0 then
      Except.error ContractError.NothingToClaim
    else Except.ok (sumAmounts (maturedClaims cs env), pendingClaims cs env)
  | some l =>
    if (takeUpTo (maturedClaims cs env) l).1 = 0 then
      Except.error ContractError.NothingToClaim
    else Except.ok ((takeUpTo (maturedClaims cs env) l).1,
      (takeUpTo (maturedClaims cs env) l).2 ++ pendingClaims cs env)

/-- Modelled from the spec: the Claim execute message (spec section 4.3),
invoking `release_claims` with no limit and storing the remaining list. -/
def claim (st : ContractState) (env : Env) (sender : Addr) :
    Except ContractError (ContractState × Nat) :=
  match release_claims (claimsOf st sender) env none with
  | Except.error e => Except.error e
  | Except.ok (released, remaining) =>
    Except.ok ({ st with claims := alistSet st.claims sender remaining }, released)

/-- Modelled from the spec: the historical weight query (spec section 4.1):
for a height beyond the current one the current value is returned, otherwise
the history is consulted. -/
def weight_at (m : SnapshotMap) (env : Env) (addr : Addr) (H : Nat) :
    Option Nat :=
  if env.height < H then alistGet m.current addr
  else histLookup ((alistGet m.history addr).getD []) H

/-! ### Traces of execute messages -/

/-- The stake-related execute messages of `msg.rs` (admin and hook management
do not touch stake, weights, totals or claims). -/
inductive Msg where
  | bond : Nat → Denom → Msg
  | unbond : Nat → Msg
  | claimAll : Msg
deriving DecidableEq

/-- One external call: the block environment, the sender and the message. -/
structure Step where
  env : Env
  sender : Addr
  msg : Msg
deriving DecidableEq

/-- Execute one step; a failing call leaves the state unchanged (spec
section 5, atomicity). -/
def execStep (st : ContractState) (s : Step) : ContractState :=
  match s.msg with
  | Msg.bond amount d =>
    match bond st s.env s.sender amount d with
    | Except.ok st' => st'
    | Except.error _ => st
  | Msg.unbond tokens =>
    match unbond st s.env s.sender tokens with
    | Except.ok st' => st'
    | Except.error _ => st
  | Msg.claimAll =>
    match claim st s.env s.sender with
    | Except.ok (st', _) => st'
    | Except.error _ => st

/-- Run a list of steps from a state. -/
def runFrom (st : ContractState) : List Step → ContractState
  | [] => st
  | s :: rest => runFrom (execStep st s) rest

/-- Run a list of steps from a freshly instantiated state. -/
def runTrace (cfg : Config) (steps : List Step) : ContractState :=
  runFrom (initState cfg) steps

/-- Block heights along a trace never decrease (blockchain execution),
starting from a lower bound. -/
def heightsMono : Nat → List Step → Bool
  | _, [] => true
  | b, s :: rest => decide (b ≤ s.env.height) && heightsMono s.env.height rest

/-- A well-formed per-address history with all heights bounded by `b`:
strictly decreasing heights, newest first. -/
def HistWF (b : Nat) (hist : List SnapEntry) : Prop :=
  hist.Chain' (fun e f => f.height < e.height) ∧ ∀ e ∈ hist, e.height ≤ b

/-- Whether an engine call succeeded. -/
def opOk {α : Type} : Except ContractError α → Bool
  | Except.ok _ => true
  | Except.error _ => false

/-- Per-address totals of the amounts moved by the successful Bond and Unbond
calls of a trace (bonded total, unbonded total). -/
def traceSums (st : ContractState) (addr : Addr) : List Step → Nat × Nat
  | [] => (0, 0)
  | s :: rest =>
    match s.msg with
    | Msg.bond a d =>
      if s.sender = addr ∧ opOk (bond st s.env s.sender a d) = true then
        ((traceSums (execStep st s) addr rest).1 + a,
         (traceSums (execStep st s) addr rest).2)
      else traceSums (execStep st s) addr rest
    | Msg.unbond t =>
      if s.sender = addr ∧ opOk (unbond st s.env s.sender t) = true then
        ((traceSums (execStep st s) addr rest).1,
         (traceSums (execStep st s) addr rest).2 + t)
      else traceSums (execStep st s) addr rest
    | Msg.claimAll => traceSums (execStep st s) addr rest

/-! ### The instantiate message of cw4-stake (`msg.rs`) -/

/-- `InstantiateMsg` from cw4-stake `msg.rs`: note that `unbonding_period` is
a plain `Duration` field while `admin` is an `Option`. -/
structure InstantiateMsg where
  denom : Denom
  tokens_per_weight : Nat
  min_bond : Nat
  unbonding_period : Duration
  admin : Option String
deriving DecidableEq

/-- Field-level acceptance of the instantiate message, following serde
deserialization of the struct in cw4-stake `msg.rs`: a field declared
`Option` may be omitted (outer `none`) and then defaults to `none`; every
other field must be present. -/
def instantiateMsgAccepts (denom : Option Denom) (tokens_per_weight : Option Nat)
    (min_bond : Option Nat) (unbonding_period : Option Duration)
    (admin : Option (Option String)) : Option InstantiateMsg :=
  match denom, tokens_per_weight, min_bond, unbonding_period with
  | some d, some t, some m, some u =>
    some { denom := d, tokens_per_weight := t, min_bond := m,
           unbonding_period := u, admin := admin.getD none }
  | _, _, _, _ => none

/-! ### Concrete scenario data used by witnesses and counterexamples -/

/-- Configuration of the spec's weight scenario: tokens_per_weight 100. -/
def cfg100 : Config :=
  { denom := Denom.native "utoken", tokens_per_weight := 100, min_bond := 0,
    unbonding_period := Duration.time 1000 }

/-- A block environment at height 1. -/
def env1 : Env := { height := 1, time := 0 }

/-- Configuration with tokens_per_weight 1 for history scenarios. -/
def cfgTpw1 : Config :=
  { denom := Denom.native "u", tokens_per_weight := 1, min_bond := 0,
    unbonding_period := Duration.time 0 }

/-- A block environment at height 5. -/
def env5 : Env := { height := 5, time := 0 }

/-- State after bonding 10 at height 5. -/
def stA : ContractState :=
  execStep (initState cfgTpw1)
    { env := env5, sender := "a", msg := Msg.bond 10 (Denom.native "u") }

/-- State after a second bond of 5 in the same block (height 5). -/
def stB : ContractState :=
  execStep stA
    { env := env5, sender := "a", msg := Msg.bond 5 (Denom.native "u") }

/-- The two same-height bond steps as a trace. -/
def steps55 : List Step :=
  [{ env := env5, sender := "a", msg := Msg.bond 10 (Denom.native "u") },
   { env := env5, sender := "a", msg := Msg.bond 5 (Denom.native "u") }]

/-- Configuration of the spec's min_bond scenario: min_bond 500. -/
def cfgMb : Config :=
  { denom := Denom.native "u", tokens_per_weight := 100, min_bond := 500,
    unbonding_period := Duration.time 0 }

/-- State after a first successful bond of 500 under `cfgMb`. -/
def st500 : ContractState :=
  execStep (initState cfgMb)
    { env := env1, sender := "a", msg := Msg.bond 500 (Denom.native "u") }

/-- A state holding one matured and one pending claim for address "a". -/
def stClaims : ContractState :=
  { config := cfgMb, total := 0, members := { current := [], history := [] },
    stake := [],
    claims := [("a", [{ amount := 5, release_at := Expiration.atTime 10 },
                      { amount := 7, release_at := Expiration.atTime 99 }])] }

/-- A block environment at time 10 (the first claim of `stClaims` matured). -/
def envT10 : Env := { height := 1, time := 10 }

/-- `stClaims` after releasing the matured claim. -/
def stClaimsAfter : ContractState :=
  { stClaims with
    claims := [("a", [{ amount := 7, release_at := Expiration.atTime 99 }])] }

/-- A block environment at height 6. -/
def env6 : Env := { height := 6, time := 0 }

/-- A later bond step at height 6, used to check history stability. -/
def stepsW3 : List Step :=
  [{ env := env6, sender := "a", msg := Msg.bond 7 (Denom.native "u") }]

end CwStake

namespace Cw20Base

/-- `cw20::Cw20Coin`: an initial balance entry. -/
structure Cw20Coin where
  address : String
  amount : Nat
deriving DecidableEq

/-- `cw20::MinterResponse`: the minter and an optional cap. -/
structure MinterResponse where
  minter : String
  cap : Option Nat
deriving DecidableEq

/-- `cw20::Logo`, reduced to its shape: a url or embedded data. -/
inductive Logo where
  | url : String → Logo
  | embedded : List Nat → Logo
deriving DecidableEq

/-- `InstantiateMarketingInfo` from cw20-base `msg.rs`. -/
structure InstantiateMarketingInfo where
  project : Option String
  description : Option String
  marketing : Option String
  logo : Option Logo
deriving DecidableEq

/-- `InstantiateMsg` from cw20-base `msg.rs`. -/
structure InstantiateMsg where
  name : String
  symbol : String
  decimals : Nat
  initial_balances : List Cw20Coin
  mint : Option MinterResponse
  marketing : Option InstantiateMarketingInfo
deriving DecidableEq

/-- `cosmwasm_std::StdError` reduced to the one constructor used by
`validate`: `generic_err` with a message. -/
inductive StdError where
  | genericErr : String → StdError
deriving DecidableEq

/-- UTF-8 encoding of a single code point, as a list of byte values. -/
def utf8Bytes (c : Nat) : List Nat :=
  if c < 128 then [c]
  else if c < 2048 then [192 + c / 64, 128 + c % 64]
  else if c < 65536 then [224 + c / 4096, 128 + (c / 64) % 64, 128 + c % 64]
  else [240 + c / 262144, 128 + (c / 4096) % 64, 128 + (c / 64) % 64,
        128 + c % 64]

/-- The UTF-8 bytes of a string (Rust `str::as_bytes`). -/
def strBytes (s : String) : List Nat :=
  s.data.flatMap (fun c => utf8Bytes c.toNat)

/-- `InstantiateMsg::has_valid_name`: the name's UTF-8 byte length must lie
in [3, 50]. -/
def has_valid_name (self : InstantiateMsg) : Bool :=
  if (strBytes self.name).length < 3 ∨ (strBytes self.name).length > 50 then
    false
  else true

/-- The byte loop of `InstantiateMsg::has_valid_symbol`: every byte must be
45 (the dash) or in [65, 90] or in [97, 122]. -/
def symbolBytesOk : List Nat → Bool
  | [] => true
  | b :: rest =>
    if b ≠ 45 ∧ (b < 65 ∨ b > 90) ∧ (b < 97 ∨ b > 122) then false
    else symbolBytesOk rest

/-- `InstantiateMsg::has_valid_symbol`: byte length in [3, 12] and only
letters or dashes. -/
def has_valid_symbol (self : InstantiateMsg) : Bool :=
  if (strBytes self.symbol).length < 3 ∨ (strBytes self.symbol).length > 12 then
    false
  else symbolBytesOk (strBytes self.symbol)

/-- `InstantiateMsg::validate` from cw20-base `msg.rs`: checks the name, then
the symbol, then that decimals do not exceed 18. -/
def validate (self : InstantiateMsg) : Except StdError Unit :=
  if !(has_valid_name self) then
    Except.error (StdError.genericErr
      "Name is not in the expected format (3-50 UTF-8 bytes)")
  else if !(has_valid_symbol self) then
    Except.error (StdError.genericErr
      "Ticker symbol is not in expected format [a-zA-Z\\-]\x7b3,12\x7d")
  else if self.decimals > 18 then
    Except.error (StdError.genericErr "Decimals must not exceed 18")
  else Except.ok ()

/-- A message with valid name and symbol but 19 decimals. -/
def m19 : InstantiateMsg :=
  { name := "abc", symbol := "abc", decimals := 19, initial_balances := [],
    mint := none, marketing := none }

/-- A valid message with 6 decimals. -/
def mA : InstantiateMsg :=
  { name := "abc", symbol := "abc", decimals := 6, initial_balances := [],
    mint := none, marketing := none }

/-- Like `mA` but with 9 decimals and a different balance list. -/
def mB : InstantiateMsg :=
  { name := "abc", symbol := "abc", decimals := 9,
    initial_balances := [{ address := "x", amount := 5 }],
    mint := none, marketing := none }

end Cw20Base

/-! ## Lemmas and theorems -/

namespace CwStake

section AListLemmas

variable {β : Type}

theorem alistGet_update (l : List (Addr × β)) (a b : Addr) (d : β) (f : β → β) :
    alistGet (alistUpdate l a d f) b =
      if b = a then some (f ((alistGet l a).getD d)) else alistGet l b := by
  induction l with
  | nil =>
    by_cases hb : b = a
    · subst hb; simp [alistUpdate, alistGet]
    · simp [alistUpdate, alistGet, hb, Ne.symm hb]
  | cons p rest ih =>
    obtain ⟨k, v⟩ := p
    by_cases hk : k = a
    · subst hk
      simp only [alistUpdate, alistGet, if_pos rfl]
      by_cases hb : k = b
      · subst hb; simp
      · simp [alistGet, hb, Ne.symm hb]
    · simp only [alistUpdate, if_neg hk]
      by_cases hb : k = b
      · subst hb
        simp [alistGet, hk]
      · simp [alistGet, hb, hk, ih]

theorem alistGet_set_self (l : List (Addr × β)) (a : Addr) (v : β) :
    alistGet (alistSet l a v) a = some v := by
  simp [alistSet, alistGet_update]

theorem alistGet_set_ne (l : List (Addr × β)) (a b : Addr) (v : β)
    (h : b ≠ a) : alistGet (alistSet l a v) b = alistGet l b := by
  simp [alistSet, alistGet_update, h]

theorem alistGet_remove_ne (l : List (Addr × β)) (a b : Addr) (h : b ≠ a) :
    alistGet (alistRemove l a) b = alistGet l b := by
  induction l with
  | nil => simp [alistRemove]
  | cons p rest ih =>
    obtain ⟨k, v⟩ := p
    by_cases hk : k = a
    · subst hk
      rw [alistRemove, if_pos rfl, alistGet, if_neg (Ne.symm h)]
    · rw [alistRemove, if_neg hk, alistGet, alistGet]
      by_cases hb : k = b
      · rw [if_pos hb, if_pos hb]
      · rw [if_neg hb, if_neg hb]; exact ih

theorem alistRemove_sublist (l : List (Addr × β)) (a : Addr) :
    List.Sublist (alistRemove l a) l := by
  induction l with
  | nil => simp [alistRemove]
  | cons p rest ih =>
    by_cases hk : p.1 = a
    · rw [alistRemove, if_pos hk]
      exact List.sublist_cons_self p rest
    · rw [alistRemove, if_neg hk]
      exact ih.cons₂ p

theorem keysNodup_remove (l : List (Addr × β)) (a : Addr)
    (h : KeysNodup l) : KeysNodup (alistRemove l a) :=
  List.Pairwise.sublist (alistRemove_sublist l a) h

theorem mem_update_key (l : List (Addr × β)) (a : Addr) (d : β) (f : β → β) :
    ∀ q ∈ alistUpdate l a d f, q.1 = a ∨ ∃ p ∈ l, q.1 = p.1 := by
  induction l with
  | nil =>
    intro q hq
    rw [alistUpdate, List.mem_singleton] at hq
    subst hq
    exact Or.inl rfl
  | cons p rest ih =>
    obtain ⟨k, v⟩ := p
    intro q hq
    by_cases hk : k = a
    · rw [alistUpdate, if_pos hk, List.mem_cons] at hq
      rcases hq with hq | hq
      · subst hq; exact Or.inr ⟨(k, v), List.mem_cons_self _ _, rfl⟩
      · exact Or.inr ⟨q, List.mem_cons_of_mem _ hq, rfl⟩
    · rw [alistUpdate, if_neg hk, List.mem_cons] at hq
      rcases hq with hq | hq
      · subst hq; exact Or.inr ⟨(k, v), List.mem_cons_self _ _, rfl⟩
      · rcases ih q hq with h1 | ⟨p', hp', hq1⟩
        · exact Or.inl h1
        · exact Or.inr ⟨p', List.mem_cons_of_mem _ hp', hq1⟩

theorem keysNodup_update (l : List (Addr × β)) (a : Addr) (d : β) (f : β → β)
    (h : KeysNodup l) : KeysNodup (alistUpdate l a d f) := by
  induction l with
  | nil => simp [alistUpdate, KeysNodup]
  | cons p rest ih =>
    obtain ⟨k, v⟩ := p
    rw [KeysNodup, List.pairwise_cons] at h
    by_cases hk : k = a
    · subst hk
      rw [KeysNodup, alistUpdate, if_pos rfl, List.pairwise_cons]
      exact ⟨fun q hq => h.1 q hq, h.2⟩
    · rw [KeysNodup, alistUpdate, if_neg hk, List.pairwise_cons]
      refine ⟨fun q hq => ?_, ih h.2⟩
      rcases mem_update_key rest a d f q hq with h1 | ⟨p', hp', h1⟩
      · rw [h1]; exact hk
      · rw [h1]; exact h.1 p' hp'

theorem keysNodup_set (l : List (Addr × β)) (a : Addr) (v : β)
    (h : KeysNodup l) : KeysNodup (alistSet l a v) :=
  keysNodup_update l a v (fun _ => v) h

theorem alistGet_eq_none (l : List (Addr × β)) (a : Addr)
    (h : ∀ q ∈ l, q.1 ≠ a) : alistGet l a = none := by
  induction l with
  | nil => simp [alistGet]
  | cons p rest ih =>
    obtain ⟨k, v⟩ := p
    have hk : k ≠ a := h (k, v) (List.mem_cons_self _ _)
    simp only [alistGet, if_neg hk]
    exact ih (fun q hq => h q (List.mem_cons_of_mem _ hq))

theorem alistGet_remove_self (l : List (Addr × β)) (a : Addr)
    (h : KeysNodup l) : alistGet (alistRemove l a) a = none := by
  induction l with
  | nil => simp [alistRemove, alistGet]
  | cons p rest ih =>
    obtain ⟨k, v⟩ := p
    rw [KeysNodup, List.pairwise_cons] at h
    by_cases hk : k = a
    · subst hk
      rw [alistRemove, if_pos rfl]
      exact alistGet_eq_none rest _ (fun q hq => (h.1 q hq).symm)
    · rw [alistRemove, if_neg hk, alistGet, if_neg hk]
      exact ih h.2

end AListLemmas

theorem sumW_set (l : List (Addr × Nat)) (a : Addr) (v : Nat) :
    sumW (alistSet l a v) + (alistGet l a).getD 0 = sumW l + v := by
  induction l with
  | nil => simp [alistSet, alistUpdate, alistGet, sumW]
  | cons p rest ih =>
    obtain ⟨k, w⟩ := p
    by_cases hk : k = a
    · subst hk
      simp [alistSet, alistUpdate, alistGet, sumW]
      omega
    · simp only [alistSet, alistUpdate, alistGet, if_neg hk, sumW] at *
      omega

theorem sumW_remove (l : List (Addr × Nat)) (a : Addr) :
    sumW (alistRemove l a) + (alistGet l a).getD 0 = sumW l := by
  induction l with
  | nil => simp [alistRemove, alistGet, sumW]
  | cons p rest ih =>
    obtain ⟨k, w⟩ := p
    by_cases hk : k = a
    · subst hk
      simp [alistRemove, alistGet, sumW]
      omega
    · simp only [alistRemove, alistGet, if_neg hk, sumW] at *
      omega

theorem alistGet_le_sumW (l : List (Addr × Nat)) (a : Addr) :
    (alistGet l a).getD 0 ≤ sumW l := by
  induction l with
  | nil => simp [alistGet, sumW]
  | cons p rest ih =>
    obtain ⟨k, w⟩ := p
    by_cases hk : k = a
    · subst hk; simp [alistGet, sumW]
    · simp only [alistGet, if_neg hk, sumW]
      omega

/-! ### History lemmas -/

theorem histLookup_append_gt (hist : List SnapEntry) (h H : Nat)
    (v : Option Nat) (hH : H < h) :
    histLookup (appendEntry hist h v) H = histLookup hist H := by
  have hfind : (decide (h ≤ H)) = false := by
    simp only [decide_eq_false_iff_not]
    omega
  cases hist with
  | nil =>
    simp [appendEntry, histLookup, List.find?_cons, hfind]
  | cons e rest =>
    by_cases he : e.height = h
    · simp [appendEntry, he, histLookup, List.find?_cons, hfind]
    · simp [appendEntry, if_neg he, histLookup, List.find?_cons, hfind]

theorem appendEntry_same_height (hist : List SnapEntry) (h : Nat)
    (v1 v2 : Option Nat) :
    appendEntry (appendEntry hist h v1) h v2 = appendEntry hist h v2 := by
  cases hist with
  | nil => simp [appendEntry]
  | cons e rest =>
    by_cases he : e.height = h
    · simp [appendEntry, he]
    · simp [appendEntry, he]

theorem histWF_mono (b b' : Nat) (hist : List SnapEntry) (hb : b ≤ b')
    (h : HistWF b hist) : HistWF b' hist :=
  ⟨h.1, fun e he => Nat.le_trans (h.2 e he) hb⟩

theorem histWF_append (b h : Nat) (hist : List SnapEntry) (v : Option Nat)
    (hwf : HistWF b hist) (hb : b ≤ h) : HistWF h (appendEntry hist h v) := by
  cases hist with
  | nil =>
    constructor
    · simp [appendEntry]
    · intro e he; simp [appendEntry] at he; simp [he]
  | cons e rest =>
    obtain ⟨hchain, hbound⟩ := hwf
    by_cases he : e.height = h
    · rw [appendEntry, if_pos he]
      constructor
      · cases rest with
        | nil => simp
        | cons g t =>
          rw [List.chain'_cons] at hchain ⊢
          refine ⟨?_, hchain.2⟩
          show g.height < h
          exact he ▸ hchain.1
      · intro f hf
        rcases List.mem_cons.mp hf with hf | hf
        · simp [hf]
        · have := hbound f (List.mem_cons_of_mem _ hf)
          omega
    · rw [appendEntry, if_neg he]
      constructor
      · rw [List.chain'_cons]
        refine ⟨?_, hchain⟩
        show e.height < h
        have := hbound e (List.mem_cons_self _ _)
        omega
      · intro f hf
        rcases List.mem_cons.mp hf with hf | hf
        · simp [hf]
        · exact Nat.le_trans (hbound f hf) hb

/-! ### update_membership lemmas -/

theorem UM_config (st : ContractState) (a : Addr) (ns h : Nat) :
    (update_membership st a ns h).config = st.config := by
  rw [update_membership]; split <;> rfl

theorem UM_stake (st : ContractState) (a : Addr) (ns h : Nat) :
    (update_membership st a ns h).stake = st.stake := by
  rw [update_membership]; split <;> rfl

theorem UM_claims (st : ContractState) (a : Addr) (ns h : Nat) :
    (update_membership st a ns h).claims = st.claims := by
  rw [update_membership]; split <;> rfl

theorem UM_weight_self (st : ContractState) (a : Addr) (ns h : Nat)
    (hnd : KeysNodup st.members.current) :
    weightOf (update_membership st a ns h) a =
      ns / st.config.tokens_per_weight := by
  by_cases h0 : ns / st.config.tokens_per_weight = 0
  · have hw : newWeightOpt st ns = none := by rw [newWeightOpt, if_pos h0]
    simp only [update_membership, hw]
    by_cases heq : alistGet st.members.current a = none
    · rw [if_pos heq, weightOf, heq]
      simp [h0]
    · rw [if_neg heq, weightOf]
      show (alistGet (alistRemove st.members.current a) a).getD 0 = _
      rw [alistGet_remove_self _ _ hnd]
      simp [h0]
  · have hw : newWeightOpt st ns = some (ns / st.config.tokens_per_weight) := by
      rw [newWeightOpt, if_neg h0]
    simp only [update_membership, hw]
    by_cases heq :
        alistGet st.members.current a = some (ns / st.config.tokens_per_weight)
    · rw [if_pos heq, weightOf, heq]
      rfl
    · rw [if_neg heq, weightOf]
      show (alistGet (alistSet st.members.current a
        (ns / st.config.tokens_per_weight)) a).getD 0 = _
      rw [alistGet_set_self]
      rfl

theorem UM_weight_ne (st : ContractState) (a b : Addr) (ns h : Nat)
    (hba : b ≠ a) :
    weightOf (update_membership st a ns h) b = weightOf st b := by
  rw [update_membership]
  by_cases heq : alistGet st.members.current a = newWeightOpt st ns
  · rw [if_pos heq]
  · rw [if_neg heq]
    cases hw : newWeightOpt st ns with
    | none =>
      rw [weightOf, weightOf]
      show (alistGet (alistRemove st.members.current a) b).getD 0 = _
      rw [alistGet_remove_ne _ _ _ hba]
    | some w =>
      rw [weightOf, weightOf]
      show (alistGet (alistSet st.members.current a w) b).getD 0 = _
      rw [alistGet_set_ne _ _ _ _ hba]

theorem UM_nodup (st : ContractState) (a : Addr) (ns h : Nat)
    (hnd : KeysNodup st.members.current) :
    KeysNodup (update_membership st a ns h).members.current := by
  rw [update_membership]
  by_cases heq : alistGet st.members.current a = newWeightOpt st ns
  · rw [if_pos heq]; exact hnd
  · rw [if_neg heq]
    cases hw : newWeightOpt st ns with
    | none => exact keysNodup_remove _ _ hnd
    | some w => exact keysNodup_set _ _ _ hnd

theorem UM_total (st : ContractState) (a : Addr) (ns h : Nat)
    (ht : st.total = sumW st.members.current) :
    (update_membership st a ns h).total =
      sumW (update_membership st a ns h).members.current := by
  rw [update_membership]
  by_cases heq : alistGet st.members.current a = newWeightOpt st ns
  · rw [if_pos heq]; exact ht
  · rw [if_neg heq]
    have hle := alistGet_le_sumW st.members.current a
    cases hw : newWeightOpt st ns with
    | none =>
      have h0 : ns / st.config.tokens_per_weight = 0 := by
        rw [newWeightOpt] at hw
        by_cases h0 : ns / st.config.tokens_per_weight = 0
        · exact h0
        · rw [if_neg h0] at hw; exact Option.noConfusion hw
      have hrm := sumW_remove st.members.current a
      show st.total + ns / st.config.tokens_per_weight -
          (alistGet st.members.current a).getD 0 =
        sumW (alistRemove st.members.current a)
      omega
    | some w =>
      have hw' : ns / st.config.tokens_per_weight = w := by
        rw [newWeightOpt] at hw
        by_cases h0 : ns / st.config.tokens_per_weight = 0
        · rw [if_pos h0] at hw; exact Option.noConfusion hw
        · rw [if_neg h0] at hw
          injection hw
      have hset := sumW_set st.members.current a w
      show st.total + ns / st.config.tokens_per_weight -
          (alistGet st.members.current a).getD 0 =
        sumW (alistSet st.members.current a w)
      omega

theorem UM_hist (st : ContractState) (a ad : Addr) (ns h : Nat) :
    histOf (update_membership st a ns h) ad = histOf st ad ∨
    ∃ v, histOf (update_membership st a ns h) ad =
      appendEntry (histOf st ad) h v := by
  rw [update_membership]
  by_cases heq : alistGet st.members.current a = newWeightOpt st ns
  · rw [if_pos heq]; exact Or.inl rfl
  · rw [if_neg heq]
    cases hw : newWeightOpt st ns with
    | none =>
      by_cases had : ad = a
      · subst had
        refine Or.inr ⟨none, ?_⟩
        show (alistGet (alistUpdate st.members.history ad []
          (fun hist => appendEntry hist h none)) ad).getD [] = _
        rw [alistGet_update]
        simp [histOf]
      · refine Or.inl ?_
        show (alistGet (alistUpdate st.members.history a []
          (fun hist => appendEntry hist h none)) ad).getD [] = _
        rw [alistGet_update, if_neg had]
        rfl
    | some w =>
      by_cases had : ad = a
      · subst had
        refine Or.inr ⟨some w, ?_⟩
        show (alistGet (alistUpdate st.members.history ad []
          (fun hist => appendEntry hist h (some w))) ad).getD [] = _
        rw [alistGet_update]
        simp [histOf]
      · refine Or.inl ?_
        show (alistGet (alistUpdate st.members.history a []
          (fun hist => appendEntry hist h (some w))) ad).getD [] = _
        rw [alistGet_update, if_neg had]
        rfl

/-! ### Inversion of the engine operations -/

theorem bond_ok_inv (st : ContractState) (env : Env) (sender : Addr)
    (amount : Nat) (d : Denom) (st' : ContractState)
    (hb : bond st env sender amount d = Except.ok st') :
    st' = update_membership
      { st with stake := alistSet st.stake sender (stakeOf st sender + amount) }
      sender (stakeOf st sender + amount) env.height := by
  rw [bond] at hb
  split at hb
  · exact Except.noConfusion hb
  · split at hb
    · exact Except.noConfusion hb
    · injection hb with hb
      exact hb.symm

theorem unbond_ok_inv (st : ContractState) (env : Env) (sender : Addr)
    (tokens : Nat) (st' : ContractState)
    (hb : unbond st env sender tokens = Except.ok st') :
    tokens ≤ stakeOf st sender ∧
    st' = update_membership
      { st with
        stake := alistSet st.stake sender (stakeOf st sender - tokens),
        claims := alistUpdate st.claims sender []
          (fun cs => cs ++
            [{ amount := tokens,
               release_at := Duration.after st.config.unbonding_period env }]) }
      sender (stakeOf st sender - tokens) env.height := by
  rw [unbond] at hb
  split at hb
  · exact Except.noConfusion hb
  · next hl =>
    injection hb with hb
    exact ⟨Nat.le_of_not_lt hl, hb.symm⟩

theorem claim_ok_inv (st : ContractState) (env : Env) (sender : Addr)
    (st' : ContractState) (r : Nat)
    (hc : claim st env sender = Except.ok (st', r)) :
    st' = { st with
      claims := alistSet st.claims sender
        (pendingClaims (claimsOf st sender) env) } ∧
    r = sumAmounts (maturedClaims (claimsOf st sender) env) := by
  by_cases h0 : sumAmounts (maturedClaims (claimsOf st sender) env) = 0
  · have hrel : release_claims (claimsOf st sender) env none =
        Except.error ContractError.NothingToClaim := by
      rw [release_claims, if_pos h0]
    rw [claim, hrel] at hc
    exact Except.noConfusion hc
  · have hrel : release_claims (claimsOf st sender) env none =
        Except.ok (sumAmounts (maturedClaims (claimsOf st sender) env),
          pendingClaims (claimsOf st sender) env) := by
      rw [release_claims, if_neg h0]
    rw [claim, hrel] at hc
    have hc' := Except.ok.inj hc
    exact ⟨(congrArg Prod.fst hc').symm, (congrArg Prod.snd hc').symm⟩

theorem claim_err_inv (st : ContractState) (env : Env) (sender : Addr)
    (e : ContractError)
    (hc : claim st env sender = Except.error e) :
    e = ContractError.NothingToClaim ∧
    sumAmounts (maturedClaims (claimsOf st sender) env) = 0 := by
  by_cases h0 : sumAmounts (maturedClaims (claimsOf st sender) env) = 0
  · exact ⟨by
      have hrel : release_claims (claimsOf st sender) env none =
          Except.error ContractError.NothingToClaim := by
        rw [release_claims, if_pos h0]
      rw [claim, hrel] at hc
      exact (Except.error.inj hc).symm, h0⟩
  · have hrel : release_claims (claimsOf st sender) env none =
        Except.ok (sumAmounts (maturedClaims (claimsOf st sender) env),
          pendingClaims (claimsOf st sender) env) := by
      rw [release_claims, if_neg h0]
    rw [claim, hrel] at hc
    exact Except.noConfusion hc

/-! ### Step lemmas -/

theorem execStep_config (st : ContractState) (s : Step) :
    (execStep st s).config = st.config := by
  rcases s with ⟨env, sender, msg⟩
  cases msg with
  | bond a d =>
    simp only [execStep]
    cases hb : bond st env sender a d with
    | ok st' =>
      show st'.config = st.config
      rw [bond_ok_inv st env sender a d st' hb, UM_config]
    | error e => rfl
  | unbond t =>
    simp only [execStep]
    cases hb : unbond st env sender t with
    | ok st' =>
      show st'.config = st.config
      rw [(unbond_ok_inv st env sender t st' hb).2, UM_config]
    | error e => rfl
  | claimAll =>
    simp only [execStep]
    cases hc : claim st env sender with
    | ok p =>
      obtain ⟨st', r⟩ := p
      show st'.config = st.config
      rw [(claim_ok_inv st env sender st' r hc).1]
    | error e => rfl

theorem runFrom_config (steps : List Step) :
    ∀ st : ContractState, (runFrom st steps).config = st.config := by
  induction steps with
  | nil => intro st; rfl
  | cons s rest ih =>
    intro st
    rw [runFrom, ih (execStep st s), execStep_config]

theorem step_total (st : ContractState) (s : Step)
    (ht : st.total = sumW st.members.current) :
    (execStep st s).total = sumW (execStep st s).members.current := by
  rcases s with ⟨env, sender, msg⟩
  cases msg with
  | bond a d =>
    simp only [execStep]
    cases hb : bond st env sender a d with
    | ok st' =>
      show st'.total = sumW st'.members.current
      rw [bond_ok_inv st env sender a d st' hb]
      exact UM_total _ _ _ _ ht
    | error e => exact ht
  | unbond t =>
    simp only [execStep]
    cases hb : unbond st env sender t with
    | ok st' =>
      show st'.total = sumW st'.members.current
      rw [(unbond_ok_inv st env sender t st' hb).2]
      exact UM_total _ _ _ _ ht
    | error e => exact ht
  | claimAll =>
    simp only [execStep]
    cases hc : claim st env sender with
    | ok p =>
      obtain ⟨st', r⟩ := p
      show st'.total = sumW st'.members.current
      rw [(claim_ok_inv st env sender st' r hc).1]
      exact ht
    | error e => exact ht

theorem step_weight_inv (st : ContractState) (s : Step)
    (hnd : KeysNodup st.members.current)
    (hw : ∀ a, weightOf st a = stakeOf st a / st.config.tokens_per_weight) :
    KeysNodup (execStep st s).members.current ∧
    ∀ a, weightOf (execStep st s) a =
      stakeOf (execStep st s) a / (execStep st s).config.tokens_per_weight := by
  rcases s with ⟨env, sender, msg⟩
  cases msg with
  | bond amt d =>
    simp only [execStep]
    cases hb : bond st env sender amt d with
    | ok st' =>
      show KeysNodup st'.members.current ∧ ∀ a,
        weightOf st' a = stakeOf st' a / st'.config.tokens_per_weight
      rw [bond_ok_inv st env sender amt d st' hb]
      constructor
      · exact UM_nodup _ _ _ _ hnd
      · intro a
        rw [UM_config]
        by_cases ha : a = sender
        · subst ha
          rw [UM_weight_self
            { st with stake := alistSet st.stake a (stakeOf st a + amt) }
            a (stakeOf st a + amt) env.height hnd]
          have : stakeOf (update_membership
              { st with stake := alistSet st.stake a (stakeOf st a + amt) }
              a (stakeOf st a + amt) env.height) a = stakeOf st a + amt := by
            rw [stakeOf, UM_stake]
            show (alistGet (alistSet st.stake a (stakeOf st a + amt)) a).getD 0 = _
            rw [alistGet_set_self]
            rfl
          rw [this]
        · rw [UM_weight_ne _ _ _ _ _ ha]
          have : stakeOf (update_membership
              { st with stake := alistSet st.stake sender (stakeOf st sender + amt) }
              sender (stakeOf st sender + amt) env.height) a = stakeOf st a := by
            rw [stakeOf, UM_stake]
            show (alistGet (alistSet st.stake sender (stakeOf st sender + amt)) a).getD 0 = _
            rw [alistGet_set_ne _ _ _ _ ha]
            rfl
          rw [this]
          exact hw a
    | error e => exact ⟨hnd, hw⟩
  | unbond t =>
    simp only [execStep]
    cases hb : unbond st env sender t with
    | ok st' =>
      show KeysNodup st'.members.current ∧ ∀ a,
        weightOf st' a = stakeOf st' a / st'.config.tokens_per_weight
      rw [(unbond_ok_inv st env sender t st' hb).2]
      constructor
      · exact UM_nodup _ _ _ _ hnd
      · intro a
        rw [UM_config]
        by_cases ha : a = sender
        · subst ha
          rw [UM_weight_self
            { st with
              stake := alistSet st.stake a (stakeOf st a - t),
              claims := alistUpdate st.claims a []
                (fun cs => cs ++
                  [{ amount := t,
                     release_at := Duration.after st.config.unbonding_period env }]) }
            a (stakeOf st a - t) env.height hnd]
          have : stakeOf (update_membership
              { st with
                stake := alistSet st.stake a (stakeOf st a - t),
                claims := alistUpdate st.claims a []
                  (fun cs => cs ++
                    [{ amount := t,
                       release_at := Duration.after st.config.unbonding_period env }]) }
              a (stakeOf st a - t) env.height) a = stakeOf st a - t := by
            rw [stakeOf, UM_stake]
            show (alistGet (alistSet st.stake a (stakeOf st a - t)) a).getD 0 = _
            rw [alistGet_set_self]
            rfl
          rw [this]
        · rw [UM_weight_ne _ _ _ _ _ ha]
          have : stakeOf (update_membership
              { st with
                stake := alistSet st.stake sender (stakeOf st sender - t),
                claims := alistUpdate st.claims sender []
                  (fun cs => cs ++
                    [{ amount := t,
                       release_at := Duration.after st.config.unbonding_period env }]) }
              sender (stakeOf st sender - t) env.height) a = stakeOf st a := by
            rw [stakeOf, UM_stake]
            show (alistGet (alistSet st.stake sender (stakeOf st sender - t)) a).getD 0 = _
            rw [alistGet_set_ne _ _ _ _ ha]
            rfl
          rw [this]
          exact hw a
    | error e => exact ⟨hnd, hw⟩
  | claimAll =>
    simp only [execStep]
    cases hc : claim st env sender with
    | ok p =>
      obtain ⟨st', r⟩ := p
      show KeysNodup st'.members.current ∧ ∀ a,
        weightOf st' a = stakeOf st' a / st'.config.tokens_per_weight
      rw [(claim_ok_inv st env sender st' r hc).1]
      exact ⟨hnd, hw⟩
    | error e => exact ⟨hnd, hw⟩

theorem step_hist (st : ContractState) (s : Step) (ad : Addr) :
    histOf (execStep st s) ad = histOf st ad ∨
    ∃ v, histOf (execStep st s) ad =
      appendEntry (histOf st ad) s.env.height v := by
  rcases s with ⟨env, sender, msg⟩
  cases msg with
  | bond a d =>
    simp only [execStep]
    cases hb : bond st env sender a d with
    | ok st' =>
      have h1 := bond_ok_inv st env sender a d st' hb
      show histOf st' ad = histOf st ad ∨ _
      rw [h1]
      exact UM_hist _ _ _ _ _
    | error e => exact Or.inl rfl
  | unbond t =>
    simp only [execStep]
    cases hb : unbond st env sender t with
    | ok st' =>
      have h1 := (unbond_ok_inv st env sender t st' hb).2
      show histOf st' ad = histOf st ad ∨ _
      rw [h1]
      exact UM_hist _ _ _ _ _
    | error e => exact Or.inl rfl
  | claimAll =>
    simp only [execStep]
    cases hc : claim st env sender with
    | ok p =>
      obtain ⟨st', r⟩ := p
      show histOf st' ad = histOf st ad ∨ _
      rw [(claim_ok_inv st env sender st' r hc).1]
      exact Or.inl rfl
    | error e => exact Or.inl rfl

/-! ### Trace lemmas -/

theorem run_total (steps : List Step) :
    ∀ st : ContractState, st.total = sumW st.members.current →
    (runFrom st steps).total = sumW (runFrom st steps).members.current := by
  induction steps with
  | nil => intro st ht; exact ht
  | cons s rest ih =>
    intro st ht
    rw [runFrom]
    exact ih (execStep st s) (step_total st s ht)

theorem run_weight_inv (steps : List Step) :
    ∀ st : ContractState, KeysNodup st.members.current →
    (∀ a, weightOf st a = stakeOf st a / st.config.tokens_per_weight) →
    KeysNodup (runFrom st steps).members.current ∧
    ∀ a, weightOf (runFrom st steps) a =
      stakeOf (runFrom st steps) a /
        (runFrom st steps).config.tokens_per_weight := by
  induction steps with
  | nil => intro st hnd hw; exact ⟨hnd, hw⟩
  | cons s rest ih =>
    intro st hnd hw
    rw [runFrom]
    have h1 := step_weight_inv st s hnd hw
    exact ih (execStep st s) h1.1 h1.2

theorem initState_nodup (cfg : Config) :
    KeysNodup (initState cfg).members.current :=
  List.Pairwise.nil

theorem initState_weight_inv (cfg : Config) :
    ∀ a, weightOf (initState cfg) a =
      stakeOf (initState cfg) a / (initState cfg).config.tokens_per_weight := by
  intro a
  simp [weightOf, stakeOf, initState, alistGet]

/-- Claim C1: at every reachable state, the stored total weight equals the
sum of all current per-address membership weights (the member map holding
each address at most once), the total being adjusted inside
`update_membership` in the same operation as any weight change. -/
theorem C1_total_weight_consistency (cfg : Config) (steps : List Step) :
    (runTrace cfg steps).total = sumW (runTrace cfg steps).members.current ∧
    KeysNodup (runTrace cfg steps).members.current := by
  constructor
  · exact run_total steps (initState cfg) rfl
  · exact (run_weight_inv steps (initState cfg) (initState_nodup cfg)
      (initState_weight_inv cfg)).1

/-- Claim C2: after any sequence of Bond and Unbond operations every
address's membership weight equals floor(stake / tokens_per_weight); in the
concrete scenario with tokens_per_weight 100, bonding 1000 yields weight 10
and total 10, and unbonding 350 yields stake 650, weight 6 and total 6 (a
decrease of 4). -/
theorem C2_weight_is_floor (cfg : Config) (steps : List Step) (addr : Addr) :
    (weightOf (runTrace cfg steps) addr =
      stakeOf (runTrace cfg steps) addr / cfg.tokens_per_weight) ∧
    ((bond (initState cfg100) env1 "a" 1000 (Denom.native "utoken")).map
      (fun st => (weightOf st "a", st.total)) = Except.ok (10, 10)) ∧
    (((bond (initState cfg100) env1 "a" 1000 (Denom.native "utoken")).bind
      (fun st => unbond st env1 "a" 350)).map
      (fun st => (stakeOf st "a", weightOf st "a", st.total)) =
      Except.ok (650, 6, 6)) := by
  refine ⟨?_, rfl, rfl⟩
  have h := (run_weight_inv steps (initState cfg) (initState_nodup cfg)
    (initState_weight_inv cfg)).2 addr
  rw [runFrom_config steps (initState cfg)] at h
  exact h

/-! ### History stability -/

theorem step_histLookup (st : ContractState) (s : Step) (ad : Addr) (H : Nat)
    (hH : H < s.env.height) :
    histLookup (histOf (execStep st s) ad) H =
      histLookup (histOf st ad) H := by
  rcases step_hist st s ad with h | ⟨v, h⟩
  · rw [h]
  · rw [h, histLookup_append_gt _ _ _ _ hH]

theorem run_histLookup (steps : List Step) :
    ∀ (st : ContractState) (ad : Addr) (H : Nat),
    (∀ s ∈ steps, H < s.env.height) →
    histLookup (histOf (runFrom st steps) ad) H =
      histLookup (histOf st ad) H := by
  induction steps with
  | nil => intro st ad H _; rfl
  | cons s rest ih =>
    intro st ad H hs
    rw [runFrom,
      ih (execStep st s) ad H (fun q hq => hs q (List.mem_cons_of_mem _ hq)),
      step_histLookup st s ad H (hs s (List.mem_cons_self _ _))]

/-- Claim C3 counterexample: with tokens_per_weight 1, after bonding 10 at
height 5 the query weight_at("a", 5) with 5 ≤ current height returns 10, and
a later bond of 5 executed at the same height 5 changes it to 15 — so a value
computed at a height equal to the current height is not stable under later
same-height writes (they collapse into the height-5 entry). -/
theorem C3_counterexample :
    5 ≤ env5.height ∧
    weight_at stA.members env5 "a" 5 = some 10 ∧
    stB = execStep stA
      { env := env5, sender := "a", msg := Msg.bond 5 (Denom.native "u") } ∧
    weight_at stB.members env5 "a" 5 = some 15 :=
  ⟨by decide, by decide, rfl, by decide⟩

/-- Claim C3 (amended): weight_at(addr, H) for H at most the query height is
unchanged by any later Bond or Unbond executed at a height strictly greater
than H; history entries at heights below every later write are never mutated
or deleted (only an entry at the exact current height can be collapsed by a
same-height write). -/
theorem C3_history_stability (st : ContractState) (steps : List Step)
    (qenv : Env) (addr : Addr) (H : Nat) (hq : H ≤ qenv.height)
    (hsteps : ∀ s ∈ steps, H < s.env.height) :
    weight_at (runFrom st steps).members qenv addr H =
      weight_at st.members qenv addr H := by
  rw [weight_at, weight_at, if_neg (Nat.not_lt.mpr hq),
    if_neg (Nat.not_lt.mpr hq)]
  exact run_histLookup steps st addr H hsteps

/-- Witness for C3: concrete instantiation at state `stA`, query height 5,
with a later bond at height 6. -/
theorem C3_witness :
    (5 ≤ env5.height ∧ ∀ s ∈ stepsW3, 5 < s.env.height) ∧
    weight_at (runFrom stA stepsW3).members env5 "a" 5 =
      weight_at stA.members env5 "a" 5 :=
  ⟨⟨by decide, by decide⟩,
   C3_history_stability stA stepsW3 env5 "a" 5 (by decide) (by decide)⟩

/-! ### History well-formedness (one entry per height) -/

theorem chain_head_gt (e : SnapEntry) (t : List SnapEntry)
    (h : (e :: t).Chain' (fun p q => q.height < p.height)) :
    ∀ f ∈ t, f.height < e.height := by
  induction t generalizing e with
  | nil =>
    intro f hf
    exact absurd hf (List.not_mem_nil f)
  | cons g t' ih =>
    intro f hf
    rw [List.chain'_cons] at h
    rcases List.mem_cons.mp hf with hf | hf
    · rw [hf]; exact h.1
    · exact Nat.lt_trans (ih g h.2 f hf) h.1

theorem chain_pairwise_ne (l : List SnapEntry)
    (h : l.Chain' (fun p q => q.height < p.height)) :
    l.Pairwise (fun p q => p.height ≠ q.height) := by
  induction l with
  | nil => exact List.Pairwise.nil
  | cons e t ih =>
    rw [List.pairwise_cons]
    constructor
    · intro f hf
      have := chain_head_gt e t h f hf
      omega
    · apply ih
      cases t with
      | nil => exact List.chain'_nil
      | cons g t' => exact (List.chain'_cons.mp h).2

theorem step_histWF (st : ContractState) (s : Step) (b : Nat)
    (hb : b ≤ s.env.height) (h : ∀ a, HistWF b (histOf st a)) :
    ∀ a, HistWF s.env.height (histOf (execStep st s) a) := by
  intro a
  rcases step_hist st s a with he | ⟨v, he⟩
  · rw [he]; exact histWF_mono b _ _ hb (h a)
  · rw [he]; exact histWF_append b _ _ v (h a) hb

theorem run_histWF (steps : List Step) :
    ∀ (b : Nat) (st : ContractState), heightsMono b steps = true →
    (∀ a, HistWF b (histOf st a)) →
    ∀ a, (histOf (runFrom st steps) a).Chain'
      (fun p q => q.height < p.height) := by
  induction steps with
  | nil => intro b st _ h a; exact (h a).1
  | cons s rest ih =>
    intro b st hm h a
    rw [heightsMono, Bool.and_eq_true, decide_eq_true_eq] at hm
    rw [runFrom]
    exact ih s.env.height (execStep st s) hm.2 (step_histWF st s b hm.1 h) a

theorem initState_histWF (cfg : Config) :
    ∀ a, HistWF 0 (histOf (initState cfg) a) := by
  intro a
  constructor
  · show List.Chain' _ ((alistGet (initState cfg).members.history a).getD [])
    simp [initState, alistGet]
  · intro e he
    simp [histOf, initState, alistGet] at he

/-- Claim C4: writes at the same height collapse into a single history entry
holding the latest value (the appendEntry collapse identity), and along any
trace with non-decreasing block heights no address's history ever holds two
entries with the same height. -/
theorem C4_same_height_collapse (cfg : Config) (steps : List Step)
    (addr : Addr) (hmono : heightsMono 0 steps = true) :
    (∀ (hist : List SnapEntry) (h : Nat) (v1 v2 : Option Nat),
      appendEntry (appendEntry hist h v1) h v2 = appendEntry hist h v2) ∧
    (histOf (runTrace cfg steps) addr).Pairwise
      (fun p q => p.height ≠ q.height) := by
  constructor
  · exact fun hist h v1 v2 => appendEntry_same_height hist h v1 v2
  · exact chain_pairwise_ne _
      (run_histWF steps 0 (initState cfg) hmono (initState_histWF cfg) addr)

/-- Witness for C4: the two same-height bonds of `steps55`. -/
theorem C4_witness :
    heightsMono 0 steps55 = true ∧
    (histOf (runTrace cfgTpw1 steps55) "a").Pairwise
      (fun p q => p.height ≠ q.height) :=
  ⟨by decide, (C4_same_height_collapse cfgTpw1 steps55 "a" (by decide)).2⟩

/-! ### Bond minimum and claim release -/

/-- Claim C5: with funds of the configured denomination, Bond fails with
BelowMinimumBond exactly when the sender has zero stake and the amount is
below min_bond; with existing stake the bond succeeds whatever the amount. -/
theorem C5_below_minimum_bond (st : ContractState) (env : Env) (sender : Addr)
    (amount : Nat) (d : Denom) (hd : d = st.config.denom) :
    (bond st env sender amount d =
        Except.error ContractError.BelowMinimumBond ↔
      stakeOf st sender = 0 ∧ amount < st.config.min_bond) ∧
    (stakeOf st sender ≠ 0 →
      ∃ st', bond st env sender amount d = Except.ok st') := by
  have hdn : ¬(d ≠ st.config.denom) := fun h => h hd
  constructor
  · constructor
    · intro h
      rw [bond, if_neg hdn] at h
      by_cases hc : stakeOf st sender = 0 ∧ amount < st.config.min_bond
      · exact hc
      · rw [if_neg hc] at h
        exact Except.noConfusion h
    · intro hc
      rw [bond, if_neg hdn, if_pos hc]
  · intro hs
    rw [bond, if_neg hdn]
    have hc : ¬(stakeOf st sender = 0 ∧ amount < st.config.min_bond) :=
      fun h => hs h.1
    rw [if_neg hc]
    exact ⟨_, rfl⟩

/-- Witness for C5: min_bond 500; a first bond of 400 is exactly the
BelowMinimumBond case, while a top-up of 10 on an existing stake of 500
succeeds. -/
theorem C5_witness :
    ((Denom.native "u" : Denom) = (initState cfgMb).config.denom) ∧
    (bond (initState cfgMb) env1 "a" 400 (Denom.native "u") =
        Except.error ContractError.BelowMinimumBond ↔
      stakeOf (initState cfgMb) "a" = 0 ∧
        400 < (initState cfgMb).config.min_bond) ∧
    stakeOf st500 "a" ≠ 0 ∧
    (∃ st', bond st500 env1 "a" 10 (Denom.native "u") = Except.ok st') :=
  ⟨rfl,
   (C5_below_minimum_bond (initState cfgMb) env1 "a" 400
     (Denom.native "u") rfl).1,
   by decide,
   (C5_below_minimum_bond st500 env1 "a" 10 (Denom.native "u") rfl).2
     (by decide)⟩

/-- Claim C6: Claim() fails with NothingToClaim exactly when the sender's
matured claim total at the current time is zero; on success it releases
exactly the matured total and stores only the pending claims. -/
theorem C6_claim_release (st : ContractState) (env : Env) (sender : Addr) :
    (claim st env sender = Except.error ContractError.NothingToClaim ↔
      sumAmounts (maturedClaims (claimsOf st sender) env) = 0) ∧
    (∀ (st' : ContractState) (r : Nat),
      claim st env sender = Except.ok (st', r) →
      r = sumAmounts (maturedClaims (claimsOf st sender) env) ∧
      claimsOf st' sender = pendingClaims (claimsOf st sender) env) := by
  constructor
  · constructor
    · intro h
      exact (claim_err_inv st env sender _ h).2
    · intro h0
      have hrel : release_claims (claimsOf st sender) env none =
          Except.error ContractError.NothingToClaim := by
        rw [release_claims, if_pos h0]
      rw [claim, hrel]
  · intro st' r h
    obtain ⟨h1, h2⟩ := claim_ok_inv st env sender st' r h
    refine ⟨h2, ?_⟩
    rw [h1, claimsOf]
    show (alistGet (alistSet st.claims sender
      (pendingClaims (claimsOf st sender) env)) sender).getD [] = _
    rw [alistGet_set_self]
    rfl

/-- Witness for C6: a state with one matured claim of 5 and one pending
claim of 7 at time 10. -/
theorem C6_witness :
    (claim stClaims envT10 "a" = Except.error ContractError.NothingToClaim ↔
      sumAmounts (maturedClaims (claimsOf stClaims "a") envT10) = 0) ∧
    (5 = sumAmounts (maturedClaims (claimsOf stClaims "a") envT10) ∧
      claimsOf stClaimsAfter "a" =
        pendingClaims (claimsOf stClaims "a") envT10) :=
  ⟨(C6_claim_release stClaims envT10 "a").1,
   (C6_claim_release stClaims envT10 "a").2 stClaimsAfter 5 rfl⟩

/-! ### Stake accounting along a trace -/

theorem execStep_stake_bond (st : ContractState) (env : Env) (sender : Addr)
    (a : Nat) (d : Denom) (addr : Addr) :
    stakeOf (execStep st { env := env, sender := sender, msg := Msg.bond a d })
        addr =
      if sender = addr ∧ opOk (bond st env sender a d) = true then
        stakeOf st addr + a
      else stakeOf st addr := by
  simp only [execStep]
  cases hb : bond st env sender a d with
  | ok st' =>
    have h1 := bond_ok_inv st env sender a d st' hb
    by_cases hs : sender = addr
    · rw [if_pos ⟨hs, rfl⟩]
      subst hs
      rw [h1, stakeOf, UM_stake]
      show (alistGet (alistSet st.stake sender
        (stakeOf st sender + a)) sender).getD 0 = _
      rw [alistGet_set_self]
      rfl
    · rw [if_neg (fun hcon => hs hcon.1)]
      rw [h1, stakeOf, UM_stake]
      show (alistGet (alistSet st.stake sender
        (stakeOf st sender + a)) addr).getD 0 = _
      rw [alistGet_set_ne _ _ _ _ (fun hcon => hs hcon.symm)]
      rfl
  | error e =>
    have hcon : ¬(sender = addr ∧
        opOk (Except.error e : Except ContractError ContractState) = true) := by
      intro hcon
      exact Bool.noConfusion hcon.2
    rw [if_neg hcon]

theorem execStep_stake_unbond (st : ContractState) (env : Env)
    (sender : Addr) (t : Nat) (addr : Addr) :
    stakeOf (execStep st { env := env, sender := sender, msg := Msg.unbond t })
        addr =
      if sender = addr ∧ opOk (unbond st env sender t) = true then
        stakeOf st addr - t
      else stakeOf st addr := by
  simp only [execStep]
  cases hb : unbond st env sender t with
  | ok st' =>
    have h1 := (unbond_ok_inv st env sender t st' hb).2
    by_cases hs : sender = addr
    · rw [if_pos ⟨hs, rfl⟩]
      subst hs
      rw [h1, stakeOf, UM_stake]
      show (alistGet (alistSet st.stake sender
        (stakeOf st sender - t)) sender).getD 0 = _
      rw [alistGet_set_self]
      rfl
    · rw [if_neg (fun hcon => hs hcon.1)]
      rw [h1, stakeOf, UM_stake]
      show (alistGet (alistSet st.stake sender
        (stakeOf st sender - t)) addr).getD 0 = _
      rw [alistGet_set_ne _ _ _ _ (fun hcon => hs hcon.symm)]
      rfl
  | error e =>
    have hcon : ¬(sender = addr ∧
        opOk (Except.error e : Except ContractError ContractState) = true) := by
      intro hcon
      exact Bool.noConfusion hcon.2
    rw [if_neg hcon]

theorem execStep_stake_claim (st : ContractState) (env : Env)
    (sender : Addr) (addr : Addr) :
    stakeOf (execStep st { env := env, sender := sender, msg := Msg.claimAll })
        addr = stakeOf st addr := by
  simp only [execStep]
  cases hc : claim st env sender with
  | ok p =>
    obtain ⟨st', r⟩ := p
    show stakeOf st' addr = stakeOf st addr
    rw [(claim_ok_inv st env sender st' r hc).1, stakeOf, stakeOf]
  | error e => rfl

theorem opOk_unbond_le (st : ContractState) (env : Env) (sender : Addr)
    (t : Nat) (h : opOk (unbond st env sender t) = true) :
    t ≤ stakeOf st sender := by
  cases hb : unbond st env sender t with
  | ok st' => exact (unbond_ok_inv st env sender t st' hb).1
  | error e =>
    rw [hb] at h
    exact Bool.noConfusion h

theorem run_stake_sums (steps : List Step) :
    ∀ (st : ContractState) (addr : Addr),
    stakeOf (runFrom st steps) addr + (traceSums st addr steps).2 =
      stakeOf st addr + (traceSums st addr steps).1 := by
  induction steps with
  | nil => intro st addr; rfl
  | cons s rest ih =>
    intro st addr
    rcases s with ⟨env, sender, msg⟩
    cases msg with
    | bond a d =>
      rw [runFrom]
      have hstep := execStep_stake_bond st env sender a d addr
      have hih :=
        ih (execStep st { env := env, sender := sender, msg := Msg.bond a d })
          addr
      by_cases hc : sender = addr ∧ opOk (bond st env sender a d) = true
      · rw [if_pos hc] at hstep
        have hts : traceSums st addr
            ({ env := env, sender := sender, msg := Msg.bond a d } :: rest) =
            ((traceSums (execStep st
                { env := env, sender := sender, msg := Msg.bond a d })
              addr rest).1 + a,
             (traceSums (execStep st
                { env := env, sender := sender, msg := Msg.bond a d })
              addr rest).2) := by
          simp only [traceSums]
          rw [if_pos hc]
        rw [hts]
        omega
      · rw [if_neg hc] at hstep
        have hts : traceSums st addr
            ({ env := env, sender := sender, msg := Msg.bond a d } :: rest) =
            traceSums (execStep st
              { env := env, sender := sender, msg := Msg.bond a d })
              addr rest := by
          simp only [traceSums]
          rw [if_neg hc]
        rw [hts]
        omega
    | unbond t =>
      rw [runFrom]
      have hstep := execStep_stake_unbond st env sender t addr
      have hih :=
        ih (execStep st { env := env, sender := sender, msg := Msg.unbond t })
          addr
      by_cases hc : sender = addr ∧ opOk (unbond st env sender t) = true
      · rw [if_pos hc] at hstep
        have hle := opOk_unbond_le st env sender t hc.2
        rw [hc.1] at hle
        have hts : traceSums st addr
            ({ env := env, sender := sender, msg := Msg.unbond t } :: rest) =
            ((traceSums (execStep st
                { env := env, sender := sender, msg := Msg.unbond t })
              addr rest).1,
             (traceSums (execStep st
                { env := env, sender := sender, msg := Msg.unbond t })
              addr rest).2 + t) := by
          simp only [traceSums]
          rw [if_pos hc]
        rw [hts]
        omega
      · rw [if_neg hc] at hstep
        have hts : traceSums st addr
            ({ env := env, sender := sender, msg := Msg.unbond t } :: rest) =
            traceSums (execStep st
              { env := env, sender := sender, msg := Msg.unbond t })
              addr rest := by
          simp only [traceSums]
          rw [if_neg hc]
        rw [hts]
        omega
    | claimAll =>
      rw [runFrom]
      have hstep := execStep_stake_claim st env sender addr
      have hih :=
        ih (execStep st { env := env, sender := sender, msg := Msg.claimAll })
          addr
      have hts : traceSums st addr
          ({ env := env, sender := sender, msg := Msg.claimAll } :: rest) =
          traceSums (execStep st
            { env := env, sender := sender, msg := Msg.claimAll })
            addr rest := by
        simp only [traceSums]
      rw [hts]
      omega

/-- Claim C7: after any trace, an address's stored stake equals the total it
bonded minus the total it unbonded in successful calls, and that difference
is never negative. -/
theorem C7_stake_roundtrip (cfg : Config) (steps : List Step) (addr : Addr) :
    (stakeOf (runTrace cfg steps) addr : Int) =
      ((traceSums (initState cfg) addr steps).1 : Int) -
        ((traceSums (initState cfg) addr steps).2 : Int) ∧
    (0 : Int) ≤ ((traceSums (initState cfg) addr steps).1 : Int) -
        ((traceSums (initState cfg) addr steps).2 : Int) := by
  have h := run_stake_sums steps (initState cfg) addr
  have h0 : stakeOf (initState cfg) addr = 0 := by
    simp [stakeOf, initState, alistGet]
  rw [h0] at h
  have h1 : stakeOf (runTrace cfg steps) addr +
      (traceSums (initState cfg) addr steps).2 =
      0 + (traceSums (initState cfg) addr steps).1 := h
  constructor <;> omega

/-- Witness for C1: the total/sum identity at the state of the two-bond
trace `steps55`. -/
theorem C1_witness :
    (runTrace cfgTpw1 steps55).total =
      sumW (runTrace cfgTpw1 steps55).members.current ∧
    KeysNodup (runTrace cfgTpw1 steps55).members.current :=
  C1_total_weight_consistency cfgTpw1 steps55

/-- Witness for C2: the weight identity at the state of `steps55`. -/
theorem C2_witness :
    (weightOf (runTrace cfgTpw1 steps55) "a" =
      stakeOf (runTrace cfgTpw1 steps55) "a" / cfgTpw1.tokens_per_weight) ∧
    ((bond (initState cfg100) env1 "a" 1000 (Denom.native "utoken")).map
      (fun st => (weightOf st "a", st.total)) = Except.ok (10, 10)) ∧
    (((bond (initState cfg100) env1 "a" 1000 (Denom.native "utoken")).bind
      (fun st => unbond st env1 "a" 350)).map
      (fun st => (stakeOf st "a", weightOf st "a", st.total)) =
      Except.ok (650, 6, 6)) :=
  C2_weight_is_floor cfgTpw1 steps55 "a"

/-- Witness for C7: the round-trip identity at the state of `steps55`. -/
theorem C7_witness :
    (stakeOf (runTrace cfgTpw1 steps55) "a" : Int) =
      ((traceSums (initState cfgTpw1) "a" steps55).1 : Int) -
        ((traceSums (initState cfgTpw1) "a" steps55).2 : Int) ∧
    (0 : Int) ≤ ((traceSums (initState cfgTpw1) "a" steps55).1 : Int) -
        ((traceSums (initState cfgTpw1) "a" steps55).2 : Int) :=
  C7_stake_roundtrip cfgTpw1 steps55 "a"

/-! ### The instantiate message schema -/

/-- Claim C8 counterexample: a message omitting `unbonding_period` is
rejected (the field is a required `Duration` in `msg.rs`, not optional),
while a zero `tokens_per_weight` is accepted (the field is a plain integer
with no positivity constraint). -/
theorem C8_counterexample :
    instantiateMsgAccepts (some (Denom.native "u")) (some 1) (some 0)
      none none = none ∧
    instantiateMsgAccepts (some (Denom.native "u")) (some 0) (some 0)
      (some (Duration.time 0)) none =
      some { denom := Denom.native "u", tokens_per_weight := 0, min_bond := 0,
             unbonding_period := Duration.time 0, admin := none } :=
  ⟨rfl, rfl⟩

/-- Claim C8 (amended): the Instantiate message accepts a denom, a
non-negative-integer tokens_per_weight, a non-negative-integer min_bond, a
required unbonding_period duration, and an optional admin address: any
message carrying the four required fields is accepted whether or not admin
is present, and every message omitting unbonding_period is rejected. -/
theorem C8_msg_fields (d : Denom) (t m : Nat) (u : Duration)
    (a : Option (Option String)) :
    (instantiateMsgAccepts (some d) (some t) (some m) (some u) a =
      some { denom := d, tokens_per_weight := t, min_bond := m,
             unbonding_period := u, admin := a.getD none }) ∧
    (∀ (d0 : Option Denom) (t0 m0 : Option Nat)
      (a0 : Option (Option String)),
      instantiateMsgAccepts d0 t0 m0 none a0 = none) := by
  constructor
  · rfl
  · intro d0 t0 m0 a0
    cases d0 <;> cases t0 <;> cases m0 <;> rfl

/-- Witness for C8: the amended acceptance facts at concrete field values. -/
theorem C8_witness :
    (instantiateMsgAccepts (some (Denom.native "u")) (some 100) (some 0)
      (some (Duration.time 7)) none =
      some { denom := Denom.native "u", tokens_per_weight := 100,
             min_bond := 0, unbonding_period := Duration.time 7,
             admin := (none : Option (Option String)).getD none }) ∧
    (∀ (d0 : Option Denom) (t0 m0 : Option Nat)
      (a0 : Option (Option String)),
      instantiateMsgAccepts d0 t0 m0 none a0 = none) :=
  C8_msg_fields (Denom.native "u") 100 0 (Duration.time 7) none

end CwStake

namespace Cw20Base

/-! ### cw20-base instantiate validation -/

theorem bool_eq_false {b : Bool} (h : ¬(b = true)) : b = false := by
  cases b
  · rfl
  · exact absurd rfl h

/-- Claim C9 counterexample: the message `m19` has a valid name and a valid
symbol yet `validate` does not return Ok, because its decimals field is 19 —
so "returns a ValidationError exactly when the name or symbol violates the
rules, otherwise Ok" fails on the code. -/
theorem C9_counterexample :
    has_valid_name m19 = true ∧ has_valid_symbol m19 = true ∧
    validate m19 ≠ Except.ok () :=
  ⟨rfl, rfl, fun h => Except.noConfusion h⟩

/-- Claim C9 (amended): `validate` returns Ok exactly when the name's UTF-8
byte length lies in [3, 50], the symbol matches the letters-and-dash pattern
of length 3 to 12, and decimals do not exceed 18; otherwise it returns a
generic error. -/
theorem C9_validate (m : InstantiateMsg) :
    validate m = Except.ok () ↔
      (has_valid_name m = true ∧ has_valid_symbol m = true ∧
        m.decimals ≤ 18) := by
  by_cases h1 : has_valid_name m = true
  · by_cases h2 : has_valid_symbol m = true
    · by_cases h3 : m.decimals ≤ 18
      · rw [validate, h1]
        simp only [Bool.not_true, Bool.false_eq_true, if_false]
        rw [h2]
        simp only [Bool.not_true, Bool.false_eq_true, if_false]
        rw [if_neg (Nat.not_lt.mpr h3)]
        simp [h1, h2, h3]
      · rw [validate, h1]
        simp only [Bool.not_true, Bool.false_eq_true, if_false]
        rw [h2]
        simp only [Bool.not_true, Bool.false_eq_true, if_false]
        rw [if_pos (Nat.not_le.mp h3)]
        simp [h3]
    · rw [validate, h1]
      simp only [Bool.not_true, Bool.false_eq_true, if_false]
      rw [bool_eq_false h2]
      simp [h2]
  · rw [validate, bool_eq_false h1]
    simp [h1]

/-- Witness for C9 (amended): the characterization of `validate` at the
concrete message `mA`. -/
theorem C9_witness :
    validate mA = Except.ok () ↔
      (has_valid_name mA = true ∧ has_valid_symbol mA = true ∧
        mA.decimals ≤ 18) :=
  C9_validate mA

/-- Claim C10: `validate` rejects every message with decimals above 18 with
an error even when name and symbol are valid, and for messages with decimals
at most 18 the outcome depends only on the name and the symbol. -/
theorem C10_decimals (k m m' : InstantiateMsg) (hk : 18 < k.decimals)
    (hname : m.name = m'.name) (hsym : m.symbol = m'.symbol)
    (hm : m.decimals ≤ 18) (hm' : m'.decimals ≤ 18) :
    (∃ e, validate k = Except.error e) ∧ validate m = validate m' := by
  constructor
  · by_cases h1 : has_valid_name k = true
    · by_cases h2 : has_valid_symbol k = true
      · refine ⟨StdError.genericErr "Decimals must not exceed 18", ?_⟩
        rw [validate, h1]
        simp only [Bool.not_true, Bool.false_eq_true, if_false]
        rw [h2]
        simp only [Bool.not_true, Bool.false_eq_true, if_false]
        rw [if_pos hk]
      · refine ⟨StdError.genericErr
          "Ticker symbol is not in expected format [a-zA-Z\\-]\x7b3,12\x7d", ?_⟩
        rw [validate, h1]
        simp only [Bool.not_true, Bool.false_eq_true, if_false]
        rw [bool_eq_false h2]
        rfl
    · refine ⟨StdError.genericErr
        "Name is not in the expected format (3-50 UTF-8 bytes)", ?_⟩
      rw [validate, bool_eq_false h1]
      rfl
  · have hn : has_valid_name m = has_valid_name m' := by
      rw [has_valid_name, has_valid_name, hname]
    have hs : has_valid_symbol m = has_valid_symbol m' := by
      rw [has_valid_symbol, has_valid_symbol, hsym]
    rw [validate, validate, hn, hs,
      if_neg (Nat.not_lt.mpr hm), if_neg (Nat.not_lt.mpr hm')]

/-- Witness for C10: `m19` (19 decimals) is rejected; `mA` and `mB` agree on
name and symbol, have decimals 6 and 9, and validate identically. -/
theorem C10_witness :
    18 < m19.decimals ∧ mA.name = mB.name ∧ mA.symbol = mB.symbol ∧
    mA.decimals ≤ 18 ∧ mB.decimals ≤ 18 ∧
    (∃ e, validate m19 = Except.error e) ∧ validate mA = validate mB := by
  have h := C10_decimals m19 mA mB (by decide) rfl rfl (by decide) (by decide)
  exact ⟨by decide, rfl, rfl, by decide, by decide, h.1, h.2⟩

end Cw20Base
